import Mathlib

/-!
Verification of `build_calendar.py` (StegnerLab/Basketball-Calendar).

Strings are modelled as `List Char`; an ICS event record is modelled as the
list of its lines, each line given without its CRLF terminator (the concrete
record text is `joinCRLF lines`).  This is faithful for the records the
program manipulates: `fetch_ics` normalizes every line break of the fetched
text to CRLF (proved below), and `VEVENT_RE` only extracts blocks ending in
`END:VEVENT\r\n`, so every line of an extracted record is CR/LF free and is
terminated by CRLF.

Network effects are factored out: the resolver is modelled on the list of
`(value, label)` option pairs extracted from the fetched HTML, and the main
pipeline on the per-target resolved id and extracted event list.  Python's
per-process string `hash` is modelled as an explicit function parameter
`hashFn`, fixed for a run.
-/

namespace BasketballCalendar

abbrev Chars := List Char

/-- Coerce a string literal to our character-list representation. -/
def s2c (s : String) : Chars := s.toList

/-- Substring test: does `needle` occur inside `hay`?  Models Python's
`needle in hay`. -/
def isSubstrOfL (needle hay : Chars) : Bool :=
  hay.tails.any (fun t => needle.isPrefixOf t)

/-! ## Line-level field matchers

`re.sub(r"^UID:(.+)\r\n", ..., flags=re.MULTILINE)` rewrites every line of
the record that starts with `UID:` and has a non-empty value: `.` does not
match `\n`, so each match is one line plus its CRLF terminator, and `(.+)`
forces at least one value character (on a line free of CR, the group is
exactly the rest of the line).  On the line representation this is the
predicate `uidMatch` below; similarly `summaryMatch` for
`^SUMMARY:(.+)\r\n` and `startsDTSTART` for `line.startswith("DTSTART")`. -/

/-- Does the regex `^UID:(.+)\r\n` match this line (line given without its
CRLF terminator, CR/LF free)? -/
def uidMatch (l : Chars) : Bool :=
  (s2c "UID:").isPrefixOf l && decide (4 < l.length)

/-- Does the regex `^SUMMARY:(.+)\r\n` match this line? -/
def summaryMatch (l : Chars) : Bool :=
  (s2c "SUMMARY:").isPrefixOf l && decide (8 < l.length)

/-- Models `line.startswith("DTSTART")`. -/
def startsDTSTART (l : Chars) : Bool :=
  (s2c "DTSTART").isPrefixOf l

/-- Concrete text of a record from its lines: each line followed by CRLF.
Models the `"\r\n"`-joined form the Python code works on. -/
def joinCRLF (ev : List Chars) : Chars :=
  (ev.map (fun l => l ++ s2c "\r\n")).flatten

/-- Models `"UID:" in event_text`: since `"UID:"` contains no CR or LF, it
occurs in the joined text iff it occurs in one of the lines or as a prefix
of a line-final fragment; on CR/LF-free lines this is the test below. -/
def containsUIDColon (ev : List Chars) : Bool :=
  ev.any (fun l => isSubstrOfL (s2c "UID:") l)

/-- The per-line action of
`re.sub(r"^UID:(.+)\r\n", lambda m: f"UID:{prefix}-{m.group(1)}\r\n", ...)`
with namespace string `pfx`. -/
def uidRewrite (pfx : Chars) (l : Chars) : Chars :=
  if uidMatch l then s2c "UID:" ++ pfx ++ s2c "-" ++ l.drop 4 else l

/-- The insertion loop of `prefix_uid`: append each line, and right after
the first line starting with `DTSTART` (tracked by the `inserted` flag)
also append the synthesized `UID:` line. -/
def insertUIDLoop (uidLine : Chars) : Bool → List Chars → List Chars
  | _, [] => []
  | true, l :: rest => l :: insertUIDLoop uidLine true rest
  | false, l :: rest =>
      if startsDTSTART l then l :: uidLine :: insertUIDLoop uidLine true rest
      else l :: insertUIDLoop uidLine false rest

/-- Models `prefix_uid(event_text, prefix)` on the line representation.
`hashFn` models Python's `abs(hash(·))` on the record text, fixed for the
process/run. -/
def prefixUid (hashFn : Chars → Nat) (ev : List Chars) (pfx : Chars) : List Chars :=
  if containsUIDColon ev then
    ev.map (uidRewrite pfx)
  else
    let uid := pfx ++ s2c "-" ++ s2c (toString (hashFn (joinCRLF ev))) ++ s2c "@basketball-bund.net"
    insertUIDLoop (s2c "UID:" ++ uid) false ev

/-- The per-line action of the `SUMMARY` rewrite in `main`:
`re.sub(r"^SUMMARY:(.+)\r\n", lambda m: f"SUMMARY:{m.group(1)} [{team_name}]\r\n", ...)`. -/
def summaryRewrite (team : Chars) (l : Chars) : Chars :=
  if summaryMatch l then l ++ s2c " [" ++ team ++ s2c "]" else l

/-- The summary-annotation step of `main` on one event record. -/
def annotateSummary (team : Chars) (ev : List Chars) : List Chars :=
  ev.map (summaryRewrite team)

/-! ## Merge and dedupe

`merged = list(dict.fromkeys(merged))` keeps the first occurrence of each
record, in order. -/

/-- Order-preserving dedup keeping first occurrences; `seen` accumulates the
keys already emitted.  Models `list(dict.fromkeys(l))`. -/
def dedupeAux {α : Type} [DecidableEq α] (seen : List α) : List α → List α
  | [] => []
  | x :: xs => if x ∈ seen then dedupeAux seen xs else x :: dedupeAux (x :: seen) xs

/-- Models `list(dict.fromkeys(l))`. -/
def dedupe {α : Type} [DecidableEq α] (l : List α) : List α :=
  dedupeAux [] l

/-! ## Line-terminator normalization in `fetch_ics`

`text.replace("\r\n", "\n").replace("\r", "\n").replace("\n", "\r\n")`. -/

/-- Models `text.replace("\r\n", "\n")` (left-to-right, non-overlapping). -/
def replCRLFtoLF : Chars → Chars
  | '\r' :: '\n' :: rest => '\n' :: replCRLFtoLF rest
  | c :: rest => c :: replCRLFtoLF rest
  | [] => []

/-- Models `text.replace("\r", "\n")`. -/
def replCRtoLF (l : Chars) : Chars :=
  l.map (fun c => if c = '\r' then '\n' else c)

/-- Models `text.replace("\n", "\r\n")`. -/
def replLFtoCRLF (l : Chars) : Chars :=
  l.flatMap (fun c => if c = '\n' then ['\r', '\n'] else [c])

/-- The line-terminator normalization performed by `fetch_ics` on the
response body. -/
def normalizeNewlines (l : Chars) : Chars :=
  replLFtoCRLF (replCRtoLF (replCRLFtoLF l))

/-- Every line break in `l` is exactly CRLF: every LF is immediately
preceded by a CR and every CR is immediately followed by an LF. -/
def GoodCRLF (l : Chars) : Prop :=
  (∀ i, l[i]? = some '\r' → l[i + 1]? = some '\n') ∧
  (∀ i, l[i + 1]? = some '\n' → l[i]? = some '\r') ∧
  l[0]? ≠ some '\n'

/-- Executable check for `GoodCRLF`. -/
def crlfOK : Chars → Bool
  | [] => true
  | c :: rest =>
      if c = '\n' then false
      else if c = '\r' then
        match rest with
        | [] => false
        | d :: rest2 => if d = '\n' then crlfOK rest2 else false
      else crlfOK rest

/-! ## Lemmas about `dedupe` -/

theorem dedupeAux_sublist {α : Type} [DecidableEq α] (seen : List α) :
    ∀ l : List α, List.Sublist (dedupeAux seen l) l := by
  intro l
  induction l generalizing seen with
  | nil => simp [dedupeAux]
  | cons x xs ih =>
      by_cases h : x ∈ seen
      · simp only [dedupeAux, if_pos h]
        exact (ih seen).cons x
      · simp only [dedupeAux, if_neg h]
        exact (ih (x :: seen)).cons₂ x

theorem mem_dedupeAux {α : Type} [DecidableEq α] {x : α} :
    ∀ {l seen : List α}, x ∈ dedupeAux seen l ↔ x ∈ l ∧ x ∉ seen := by
  intro l
  induction l with
  | nil => simp [dedupeAux]
  | cons y xs ih =>
      intro seen
      by_cases h : y ∈ seen
      · simp only [dedupeAux, if_pos h, ih, List.mem_cons]
        constructor
        · exact fun ⟨hm, hs⟩ => ⟨Or.inr hm, hs⟩
        · rintro ⟨hy | hm, hs⟩
          · exact absurd (hy ▸ h) hs
          · exact ⟨hm, hs⟩
      · simp only [dedupeAux, if_neg h, List.mem_cons, ih]
        constructor
        · rintro (rfl | ⟨hm, hs⟩)
          · exact ⟨Or.inl rfl, h⟩
          · exact ⟨Or.inr hm, fun hx => hs (Or.inr hx)⟩
        · rintro ⟨rfl | hm, hs⟩
          · exact Or.inl rfl
          · by_cases hxy : x = y
            · exact Or.inl hxy
            · exact Or.inr ⟨hm, fun h2 => h2.elim hxy hs⟩

theorem dedupeAux_nodup {α : Type} [DecidableEq α] (seen : List α) :
    ∀ l : List α, (dedupeAux seen l).Nodup := by
  intro l
  induction l generalizing seen with
  | nil => simp [dedupeAux]
  | cons x xs ih =>
      by_cases h : x ∈ seen
      · simpa [dedupeAux, if_pos h] using ih seen
      · simp only [dedupeAux, if_neg h, List.nodup_cons]
        refine ⟨fun hx => ?_, ih (x :: seen)⟩
        exact (mem_dedupeAux.mp hx).2 (List.mem_cons_self x seen)

theorem dedupeAux_congr_seen {α : Type} [DecidableEq α] {s₁ s₂ : List α}
    (h : ∀ a, a ∈ s₁ ↔ a ∈ s₂) : ∀ l : List α, dedupeAux s₁ l = dedupeAux s₂ l := by
  intro l
  induction l generalizing s₁ s₂ with
  | nil => simp [dedupeAux]
  | cons x xs ih =>
      by_cases hx : x ∈ s₁
      · rw [dedupeAux, dedupeAux, if_pos hx, if_pos ((h x).mp hx)]
        exact ih h
      · rw [dedupeAux, dedupeAux, if_neg hx, if_neg (fun hc => hx ((h x).mpr hc))]
        refine congrArg (x :: ·) (ih ?_)
        intro a; simp [h a]

theorem dedupeAux_cons_seen {α : Type} [DecidableEq α] (y : α) :
    ∀ (l seen : List α), dedupeAux (y :: seen) l = dedupeAux seen (l.filter (fun a => a ≠ y)) := by
  intro l
  induction l with
  | nil => simp [dedupeAux]
  | cons x xs ih =>
      intro seen
      by_cases hxy : x = y
      · subst hxy
        simp only [List.filter_cons, decide_eq_true_eq]
        rw [if_neg (by simp)]
        rw [dedupeAux, if_pos (List.mem_cons_self x seen)]
        exact ih seen
      · simp only [List.filter_cons, decide_eq_true_eq]
        rw [if_pos (by simp [hxy])]
        by_cases hx : x ∈ seen
        · rw [dedupeAux, if_pos (List.mem_cons_of_mem _ hx), dedupeAux, if_pos hx]
          exact ih seen
        · rw [dedupeAux, if_neg (by simp [hxy, hx]), dedupeAux, if_neg hx]
          refine congrArg (x :: ·) ?_
          have hswap : ∀ a, a ∈ (x :: y :: seen) ↔ a ∈ (y :: x :: seen) := by
            intro a
            simp only [List.mem_cons]
            tauto
          rw [dedupeAux_congr_seen hswap]
          exact ih (x :: seen)

theorem dedupe_cons {α : Type} [DecidableEq α] (x : α) (xs : List α) :
    dedupe (x :: xs) = x :: dedupe (xs.filter (fun a => a ≠ x)) := by
  rw [dedupe, dedupeAux, if_neg (List.not_mem_nil x)]
  exact congrArg (x :: ·) (dedupeAux_cons_seen x xs [])

/-! ## Lemmas about the CRLF normalization -/

theorem replCRtoLF_no_cr {l : Chars} {c : Char} (h : c ∈ replCRtoLF l) : c ≠ '\r' := by
  rcases List.mem_map.mp h with ⟨d, _, rfl⟩
  by_cases hd : d = '\r' <;> simp [hd]

theorem crlfOK_cr_cons (d : Char) (rest2 : Chars) :
    crlfOK ('\r' :: d :: rest2) = if d = '\n' then crlfOK rest2 else false := by
  rw [crlfOK.eq_def]
  simp

theorem crlfOK_other (c : Char) (rest : Chars) (hn : c ≠ '\n') (hr : c ≠ '\r') :
    crlfOK (c :: rest) = crlfOK rest := by
  rw [crlfOK.eq_def]
  simp [hn, hr]

theorem crlfOK_replLFtoCRLF {l : Chars} (h : ∀ c ∈ l, c ≠ '\r') :
    crlfOK (replLFtoCRLF l) = true := by
  induction l with
  | nil => rfl
  | cons c rest ih =>
      have hc : c ≠ '\r' := h c (List.mem_cons_self _ _)
      have hrest : ∀ d ∈ rest, d ≠ '\r' := fun d hd => h d (List.mem_cons_of_mem _ hd)
      by_cases hn : c = '\n'
      · subst hn
        have hstep : replLFtoCRLF ('\n' :: rest) = '\r' :: '\n' :: replLFtoCRLF rest := by
          simp [replLFtoCRLF]
        rw [hstep, crlfOK_cr_cons, if_pos rfl]
        exact ih hrest
      · have hstep : replLFtoCRLF (c :: rest) = c :: replLFtoCRLF rest := by
          simp [replLFtoCRLF, hn]
        rw [hstep, crlfOK_other c _ hn hc]
        exact ih hrest

theorem goodCRLF_crlf_cons {rest : Chars} (g : GoodCRLF rest) :
    GoodCRLF ('\r' :: '\n' :: rest) := by
  obtain ⟨g1, g2, g3⟩ := g
  refine ⟨?_, ?_, ?_⟩
  · intro i hi
    match i with
    | 0 => simp
    | 1 => simp at hi
    | (k + 2) =>
        have : rest[k]? = some '\r' := by simpa using hi
        simpa using g1 k this
  · intro i hi
    match i with
    | 0 => simp
    | 1 => exact absurd (by simpa using hi) g3
    | (k + 2) =>
        have : rest[k + 1]? = some '\n' := by simpa using hi
        simpa using g2 k this
  · simp

theorem goodCRLF_other_cons {c : Char} {rest : Chars} (hr : c ≠ '\r') (hn : c ≠ '\n')
    (g : GoodCRLF rest) : GoodCRLF (c :: rest) := by
  obtain ⟨g1, g2, g3⟩ := g
  refine ⟨?_, ?_, ?_⟩
  · intro i hi
    match i with
    | 0 => exact absurd (by simpa using hi) hr
    | (k + 1) =>
        have : rest[k]? = some '\r' := by simpa using hi
        simpa using g1 k this
  · intro i hi
    match i with
    | 0 => exact absurd (by simpa using hi) g3
    | (k + 1) =>
        have : rest[k + 1]? = some '\n' := by simpa using hi
        simpa using g2 k this
  · simpa using hn

theorem crlfOK_goodCRLF : ∀ l : Chars, crlfOK l = true → GoodCRLF l := by
  have main : ∀ n, ∀ l : Chars, l.length ≤ n → crlfOK l = true → GoodCRLF l := by
    intro n
    induction n with
    | zero =>
        intro l hl _
        have : l = [] := List.length_eq_zero.mp (Nat.le_zero.mp hl)
        subst this
        exact ⟨fun i h => by simp at h, fun i h => by simp at h, by simp⟩
    | succ n ih =>
        intro l hl hok
        cases l with
        | nil => exact ⟨fun i h => by simp at h, fun i h => by simp at h, by simp⟩
        | cons c rest =>
            by_cases hn : c = '\n'
            · subst hn
              rw [crlfOK.eq_def] at hok
              simp at hok
            · by_cases hr : c = '\r'
              · subst hr
                cases rest with
                | nil => exact absurd hok (by decide)
                | cons d rest2 =>
                    rw [crlfOK_cr_cons] at hok
                    by_cases hd : d = '\n'
                    · subst hd
                      rw [if_pos rfl] at hok
                      have hlen : rest2.length ≤ n := by
                        simp only [List.length_cons] at hl; omega
                      exact goodCRLF_crlf_cons (ih rest2 hlen hok)
                    · rw [if_neg hd] at hok
                      exact absurd hok (by simp)
              · have hok2 : crlfOK rest = true := by
                  rw [crlfOK_other c rest hn hr] at hok
                  exact hok
                have hlen : rest.length ≤ n := by
                  simp only [List.length_cons] at hl; omega
                exact goodCRLF_other_cons hr hn (ih rest hlen hok2)
  exact fun l => main l.length l (Nat.le_refl _)

/-! ## Claim C7: merge and dedupe -/

/-- C7: `list(dict.fromkeys(merged))` removes exactly the records that are
full-text-equal to an earlier record, keeps first occurrences, and preserves
the relative order of kept records: the output is a sublist of the input
(order preserved), duplicate-free, with the same members, and satisfies the
keep-first recurrence; in particular for distinct records `A`, `B`, merging
`[A, B, A]` yields `[A, B]`. -/
theorem dedupe_removes_exact_duplicates :
    (∀ l : List (List Chars), List.Sublist (dedupe l) l ∧ (dedupe l).Nodup ∧
        (∀ x, x ∈ dedupe l ↔ x ∈ l)) ∧
    (∀ (x : List Chars) (xs : List (List Chars)),
        dedupe (x :: xs) = x :: dedupe (xs.filter (fun y => y ≠ x))) ∧
    (∀ A B : List Chars, A ≠ B → dedupe [A, B, A] = [A, B]) := by
  refine ⟨fun l => ⟨dedupeAux_sublist [] l, dedupeAux_nodup [] l, fun x => ?_⟩,
    dedupe_cons, fun A B hAB => ?_⟩
  · rw [dedupe, mem_dedupeAux]
    simp
  · have hBA : B ≠ A := Ne.symm hAB
    simp [dedupe, dedupeAux, hAB, hBA]

/-- Witness for C7 at concrete distinct records. -/
theorem dedupe_removes_exact_duplicates_witness :
    ([s2c "BEGIN:VEVENT"] : List Chars) ≠ [s2c "END:VEVENT"] ∧
    dedupe [[s2c "BEGIN:VEVENT"], [s2c "END:VEVENT"], [s2c "BEGIN:VEVENT"]] =
      [[s2c "BEGIN:VEVENT"], [s2c "END:VEVENT"]] :=
  ⟨by decide, dedupe_removes_exact_duplicates.2.2 _ _ (by decide)⟩

/-! ## Claim C8: line-terminator normalization in `fetch_ics` -/

/-- C8: the `fetch_ics` replacement chain
`.replace("\r\n", "\n").replace("\r", "\n").replace("\n", "\r\n")` maps every
input to a string in which every LF is immediately preceded by a CR and every
CR is immediately followed by an LF, i.e. every line break is exactly CRLF,
whatever mixture of CRLF, bare LF and bare CR the input used. -/
theorem normalizeNewlines_goodCRLF (l : Chars) : GoodCRLF (normalizeNewlines l) :=
  crlfOK_goodCRLF _ (crlfOK_replLFtoCRLF (fun _ hc => replCRtoLF_no_cr hc))

/-! ## Transformer lemmas -/

theorem containsUIDColon_of_mem {ev : List Chars} {l : Chars} (hl : l ∈ ev)
    (hs : isSubstrOfL (s2c "UID:") l = true) : containsUIDColon ev = true := by
  rw [containsUIDColon, List.any_eq_true]
  exact ⟨l, hl, hs⟩

theorem isSubstrOfL_of_uidMatch {l : Chars} (h : uidMatch l = true) :
    isSubstrOfL (s2c "UID:") l = true := by
  rw [uidMatch, Bool.and_eq_true] at h
  rw [isSubstrOfL, List.any_eq_true]
  refine ⟨l, ?_, h.1⟩
  cases l with
  | nil => simp [List.tails]
  | cons c rest => simp [List.tails]

/-! ## Claim C10: a mid-line `UID:` occurrence suppresses both rewrite and synthesis -/

/-- C10: if `UID:` occurs somewhere in the record text but no line matches
`^UID:(.+)\r\n` (e.g. `UID:` embedded mid-line, or a value-less `UID:` line),
`prefix_uid` takes the rewrite branch, the substitution matches nothing, and
the record is returned completely unchanged: no namespacing and no synthesis
happens. -/
theorem prefixUid_unchanged_when_no_uid_line (hashFn : Chars → Nat) (ev : List Chars)
    (pfx : Chars) (h1 : containsUIDColon ev = true)
    (h2 : ∀ l ∈ ev, uidMatch l = false) :
    prefixUid hashFn ev pfx = ev := by
  rw [prefixUid, if_pos h1]
  have : ∀ l ∈ ev, uidRewrite pfx l = l := by
    intro l hl
    rw [uidRewrite, if_neg (by simp [h2 l hl])]
  exact List.map_congr_left this ▸ List.map_id ev

/-- Witness for C10: a record whose DESCRIPTION mentions `UID:` mid-line and
whose only `UID:`-initial line has an empty value. -/
theorem prefixUid_unchanged_when_no_uid_line_witness :
    containsUIDColon
        [s2c "BEGIN:VEVENT", s2c "DESCRIPTION:see UID: note", s2c "UID:", s2c "END:VEVENT"] = true ∧
    (∀ l ∈ [s2c "BEGIN:VEVENT", s2c "DESCRIPTION:see UID: note", s2c "UID:", s2c "END:VEVENT"],
        uidMatch l = false) ∧
    prefixUid (fun _ => 0)
        [s2c "BEGIN:VEVENT", s2c "DESCRIPTION:see UID: note", s2c "UID:", s2c "END:VEVENT"]
        (s2c "liga51127-team425276") =
      [s2c "BEGIN:VEVENT", s2c "DESCRIPTION:see UID: note", s2c "UID:", s2c "END:VEVENT"] :=
  ⟨by decide, by decide,
    prefixUid_unchanged_when_no_uid_line (fun _ => 0) _ _ (by decide) (by decide)⟩

/-- When the record contains `UID:`, `prefix_uid` acts linewise by
`uidRewrite`. -/
theorem prefixUid_getElem (hashFn : Chars → Nat) (ev : List Chars) (pfx : Chars)
    (h1 : containsUIDColon ev = true) :
    (prefixUid hashFn ev pfx).length = ev.length ∧
    ∀ (i : Nat) (l : Chars), ev[i]? = some l →
      (prefixUid hashFn ev pfx)[i]? = some (uidRewrite pfx l) := by
  rw [prefixUid, if_pos h1]
  refine ⟨List.length_map _ _, fun i l hi => ?_⟩
  rw [List.getElem?_map, hi]
  rfl

/-- The summary-annotation step acts linewise by `summaryRewrite`. -/
theorem annotateSummary_getElem (team : Chars) (ev : List Chars) :
    (annotateSummary team ev).length = ev.length ∧
    ∀ (i : Nat) (l : Chars), ev[i]? = some l →
      (annotateSummary team ev)[i]? = some (summaryRewrite team l) := by
  refine ⟨List.length_map _ _, fun i l hi => ?_⟩
  rw [annotateSummary, List.getElem?_map, hi]
  rfl

/-! ## Claim C3: which lines do the two rewrites touch? -/

/-- C3 counterexample: `re.sub(..., flags=re.MULTILINE)` with no `count`
replaces EVERY matching line, not only the first: in a record with two
`UID:` lines and two `SUMMARY:` lines the second of each is rewritten too,
refuting the claim that only the first matching line is modified and every
other line is left byte-identical. -/
theorem first_matching_line_only_counterexample :
    (prefixUid (fun _ => 0)
        [s2c "BEGIN:VEVENT", s2c "UID:a", s2c "UID:b", s2c "END:VEVENT"] (s2c "p"))[2]? =
      some (s2c "UID:p-b") ∧
    ([s2c "BEGIN:VEVENT", s2c "UID:a", s2c "UID:b", s2c "END:VEVENT"] : List Chars)[2]? =
      some (s2c "UID:b") ∧
    s2c "UID:p-b" ≠ s2c "UID:b" ∧
    (annotateSummary (s2c "T")
        [s2c "BEGIN:VEVENT", s2c "SUMMARY:x", s2c "SUMMARY:y", s2c "END:VEVENT"])[2]? =
      some (s2c "SUMMARY:y [T]") ∧
    ([s2c "BEGIN:VEVENT", s2c "SUMMARY:x", s2c "SUMMARY:y", s2c "END:VEVENT"] : List Chars)[2]? =
      some (s2c "SUMMARY:y") ∧
    s2c "SUMMARY:y [T]" ≠ s2c "SUMMARY:y" := by
  refine ⟨by decide, by decide, by decide, by decide, by decide, by decide⟩

/-- C3 amended: each rewrite modifies exactly the lines matching its
field-name pattern at line start (every such line, not only the first), in
the way the substitution template prescribes, and leaves every non-matching
line byte-identical; the record length never changes. -/
theorem rewrites_touch_exactly_matching_lines (hashFn : Chars → Nat) (ev : List Chars)
    (pfx team : Chars) (h1 : containsUIDColon ev = true) :
    ((prefixUid hashFn ev pfx).length = ev.length ∧
     (∀ (i : Nat) (l : Chars), ev[i]? = some l → uidMatch l = false →
        (prefixUid hashFn ev pfx)[i]? = some l) ∧
     (∀ (i : Nat) (l : Chars), ev[i]? = some l → uidMatch l = true →
        (prefixUid hashFn ev pfx)[i]? = some (s2c "UID:" ++ pfx ++ s2c "-" ++ l.drop 4))) ∧
    ((annotateSummary team ev).length = ev.length ∧
     (∀ (i : Nat) (l : Chars), ev[i]? = some l → summaryMatch l = false →
        (annotateSummary team ev)[i]? = some l) ∧
     (∀ (i : Nat) (l : Chars), ev[i]? = some l → summaryMatch l = true →
        (annotateSummary team ev)[i]? = some (l ++ s2c " [" ++ team ++ s2c "]"))) := by
  obtain ⟨hlen1, hpt1⟩ := prefixUid_getElem hashFn ev pfx h1
  obtain ⟨hlen2, hpt2⟩ := annotateSummary_getElem team ev
  refine ⟨⟨hlen1, fun i l hi hm => ?_, fun i l hi hm => ?_⟩,
    ⟨hlen2, fun i l hi hm => ?_, fun i l hi hm => ?_⟩⟩
  · rw [hpt1 i l hi, uidRewrite, if_neg (by simp [hm])]
  · rw [hpt1 i l hi, uidRewrite, if_pos hm]
  · rw [hpt2 i l hi, summaryRewrite, if_neg (by simp [hm])]
  · rw [hpt2 i l hi, summaryRewrite, if_pos hm]

/-- Witness for the amended C3 at a concrete two-UID, two-SUMMARY record. -/
theorem rewrites_touch_exactly_matching_lines_witness :
    containsUIDColon [s2c "BEGIN:VEVENT", s2c "UID:a", s2c "UID:b", s2c "SUMMARY:x",
        s2c "END:VEVENT"] = true ∧
    ((prefixUid (fun _ => 0) [s2c "BEGIN:VEVENT", s2c "UID:a", s2c "UID:b", s2c "SUMMARY:x",
        s2c "END:VEVENT"] (s2c "p")).length = 5 ∧
      (prefixUid (fun _ => 0) [s2c "BEGIN:VEVENT", s2c "UID:a", s2c "UID:b", s2c "SUMMARY:x",
        s2c "END:VEVENT"] (s2c "p"))[3]? = some (s2c "SUMMARY:x")) :=
  ⟨by decide,
    by
      have h := rewrites_touch_exactly_matching_lines (fun _ => 0)
        [s2c "BEGIN:VEVENT", s2c "UID:a", s2c "UID:b", s2c "SUMMARY:x", s2c "END:VEVENT"]
        (s2c "p") (s2c "T") (by decide)
      exact ⟨h.1.1, h.1.2.1 3 (s2c "SUMMARY:x") (by decide) (by decide)⟩⟩

/-! ## Claim C5: the `UID:12345` rewrite example -/

/-- C5 counterexample: in a record that contains the line `UID:12345` AND a
second `UID:` line, the transform also rewrites the second line, so it is
not true that every line other than the `UID:12345` line is unchanged. -/
theorem uid_rewrite_example_counterexample :
    (prefixUid (fun _ => 0)
        [s2c "BEGIN:VEVENT", s2c "UID:12345", s2c "UID:9", s2c "END:VEVENT"]
        (s2c "liga51127-team425276"))[2]? =
      some (s2c "UID:liga51127-team425276-9") ∧
    ([s2c "BEGIN:VEVENT", s2c "UID:12345", s2c "UID:9", s2c "END:VEVENT"] : List Chars)[2]? =
      some (s2c "UID:9") ∧
    s2c "UID:liga51127-team425276-9" ≠ s2c "UID:9" := by
  refine ⟨by decide, by decide, by decide⟩

/-- C5 amended: transforming a record containing the line `UID:12345` with
namespace string `liga51127-team425276` turns every occurrence of that line
into `UID:liga51127-team425276-12345` and leaves every line that does not
itself match the `UID:` field pattern unchanged (the record length is
preserved). -/
theorem uid_rewrite_example_amended (hashFn : Chars → Nat) (ev : List Chars)
    (hmem : s2c "UID:12345" ∈ ev) :
    (prefixUid hashFn ev (s2c "liga51127-team425276")).length = ev.length ∧
    (∀ (i : Nat), ev[i]? = some (s2c "UID:12345") →
        (prefixUid hashFn ev (s2c "liga51127-team425276"))[i]? =
          some (s2c "UID:liga51127-team425276-12345")) ∧
    (∀ (i : Nat) (l : Chars), ev[i]? = some l → uidMatch l = false →
        (prefixUid hashFn ev (s2c "liga51127-team425276"))[i]? = some l) := by
  have h1 : containsUIDColon ev = true :=
    containsUIDColon_of_mem hmem (by decide)
  obtain ⟨hlen, hpt⟩ := prefixUid_getElem hashFn ev (s2c "liga51127-team425276") h1
  refine ⟨hlen, fun i hi => ?_, fun i l hi hm => ?_⟩
  · rw [hpt i _ hi]
    decide
  · rw [hpt i l hi, uidRewrite, if_neg (by simp [hm])]

/-- Witness for the amended C5 at a concrete single-UID record. -/
theorem uid_rewrite_example_amended_witness :
    s2c "UID:12345" ∈
      [s2c "BEGIN:VEVENT", s2c "UID:12345", s2c "SUMMARY:Heim", s2c "END:VEVENT"] ∧
    (prefixUid (fun _ => 0)
        [s2c "BEGIN:VEVENT", s2c "UID:12345", s2c "SUMMARY:Heim", s2c "END:VEVENT"]
        (s2c "liga51127-team425276"))[1]? =
      some (s2c "UID:liga51127-team425276-12345") :=
  ⟨by decide,
    (uid_rewrite_example_amended (fun _ => 0)
        [s2c "BEGIN:VEVENT", s2c "UID:12345", s2c "SUMMARY:Heim", s2c "END:VEVENT"]
        (by decide)).2.1 1 (by decide)⟩

/-! ## Claim C6: UID synthesis -/

theorem insertUIDLoop_true (uidLine : Chars) :
    ∀ ev : List Chars, insertUIDLoop uidLine true ev = ev := by
  intro ev
  induction ev with
  | nil => rfl
  | cons l rest ih => rw [insertUIDLoop, ih]

theorem insertUIDLoop_false (uidLine : Chars) :
    ∀ ev : List Chars, (∃ l ∈ ev, startsDTSTART l = true) →
      insertUIDLoop uidLine false ev =
        ev.take (ev.findIdx startsDTSTART + 1) ++ uidLine :: ev.drop (ev.findIdx startsDTSTART + 1) := by
  intro ev
  induction ev with
  | nil => rintro ⟨l, hl, _⟩; exact absurd hl (List.not_mem_nil l)
  | cons l rest ih =>
      rintro ⟨m, hm, hdt⟩
      by_cases hl : startsDTSTART l = true
      · rw [insertUIDLoop, if_pos hl, insertUIDLoop_true]
        rw [List.findIdx_cons, hl]
        simp
      · have hmem : m ∈ rest := by
          rcases List.mem_cons.mp hm with rfl | h
          · exact absurd hdt (by simp [hl])
          · exact h
        rw [insertUIDLoop, if_neg hl, ih ⟨m, hmem, hdt⟩]
        rw [List.findIdx_cons, Bool.cond_eq_ite,
          if_neg (by simp [hl])]
        simp

/-- C6: on a record with no `UID:` occurrence and at least one `DTSTART`
line, `prefix_uid` inserts exactly one new line, immediately after the first
`DTSTART` line (later `DTSTART`-like lines trigger nothing), whose value is
`prefix + "-" + hash(record text) + "@basketball-bund.net"`; the UID value,
in particular its hash component, is a function of the record text alone
given the per-run hash, hence identical when the transform is re-applied to
the same input and prefix within a run. -/
theorem prefixUid_synthesizes (hashFn : Chars → Nat) (ev : List Chars) (pfx : Chars)
    (h1 : containsUIDColon ev = false)
    (h2 : ∃ l ∈ ev, startsDTSTART l = true) :
    prefixUid hashFn ev pfx =
      ev.take (ev.findIdx startsDTSTART + 1) ++
        (s2c "UID:" ++ pfx ++ s2c "-" ++ s2c (toString (hashFn (joinCRLF ev))) ++
          s2c "@basketball-bund.net") ::
        ev.drop (ev.findIdx startsDTSTART + 1) := by
  rw [prefixUid, if_neg (by simp [h1])]
  exact insertUIDLoop_false _ ev h2

/-- Witness for C6: a record with two `DTSTART`-like lines and no `UID:`. -/
theorem prefixUid_synthesizes_witness :
    containsUIDColon
        [s2c "BEGIN:VEVENT", s2c "DTSTART:20250101T100000Z", s2c "DTSTART;TZID=E:x",
          s2c "END:VEVENT"] = false ∧
    (∃ l ∈ [s2c "BEGIN:VEVENT", s2c "DTSTART:20250101T100000Z", s2c "DTSTART;TZID=E:x",
          s2c "END:VEVENT"], startsDTSTART l = true) ∧
    prefixUid (fun _ => 7)
        [s2c "BEGIN:VEVENT", s2c "DTSTART:20250101T100000Z", s2c "DTSTART;TZID=E:x",
          s2c "END:VEVENT"] (s2c "liga51127-team425276") =
      [s2c "BEGIN:VEVENT", s2c "DTSTART:20250101T100000Z",
        s2c "UID:liga51127-team425276-7@basketball-bund.net", s2c "DTSTART;TZID=E:x",
        s2c "END:VEVENT"] := by
  refine ⟨by decide, by decide, ?_⟩
  have h := prefixUid_synthesizes (fun _ => 7)
    [s2c "BEGIN:VEVENT", s2c "DTSTART:20250101T100000Z", s2c "DTSTART;TZID=E:x",
      s2c "END:VEVENT"] (s2c "liga51127-team425276") (by decide) (by decide)
  rw [h]
  decide

/-! ## The text normalizer `norm`

`norm` is `casefold ∘ strip-combining ∘ NFKD ∘ strip ∘ collapse-whitespace ∘
html.unescape`.  The Unicode-dependent pieces (`html.unescape`,
`unicodedata.normalize("NFKD", ·)`, `unicodedata.combining`, `str.casefold`)
are modelled by explicit finite tables that agree with CPython on the ASCII
range and on the non-ASCII characters exercised by the theorems below
(umlaut vowels, the combining diaeresis, sharp s, NBSP); characters outside
the tables behave neutrally, as the corresponding CPython functions do for
unlisted code points of these kinds. -/

/-- The characters matched by Python's `\s` (and stripped by `str.strip()`)
that this model covers: ASCII whitespace plus NBSP. -/
def spaceChars : Chars := [' ', '\t', '\n', '\r', '\x0b', '\x0c', ' ']

/-- Is `c` whitespace for `\s` / `str.strip()`? -/
def pySpace (c : Char) : Bool := spaceChars.contains c

/-- Models `html.unescape`, restricted to the `amp` entity (the only one the
theorems below exercise): CPython replaces each `&amp;` by `&` left to
right, without rescanning the replacement. -/
def unescapeF : Nat → Chars → Chars
  | 0, l => l
  | _ + 1, [] => []
  | fuel + 1, c :: rest =>
      match rest with
      | c1 :: c2 :: c3 :: c4 :: rest2 =>
          if c = '&' ∧ c1 = 'a' ∧ c2 = 'm' ∧ c3 = 'p' ∧ c4 = ';' then '&' :: unescapeF fuel rest2
          else c :: unescapeF fuel rest
      | _ => c :: unescapeF fuel rest

/-- Entry point of the unescape model; the fuel `l.length` is always
sufficient since every step consumes at least one character. -/
def unescape (l : Chars) : Chars := unescapeF l.length l

/-- The run-collapsing pass of `re.sub(r"\s+", " ", s)`: every maximal run
of whitespace becomes a single space; `prev` records whether the previous
character belonged to a whitespace run. -/
def squashWS (prev : Bool) : Chars → Chars
  | [] => []
  | c :: rest =>
      if pySpace c then
        (if prev then squashWS true rest else ' ' :: squashWS true rest)
      else c :: squashWS false rest

/-- Remove the trailing whitespace run. -/
def dropTrailingWS : Chars → Chars
  | [] => []
  | c :: rest =>
      match dropTrailingWS rest with
      | [] => if pySpace c then [] else [c]
      | r => c :: r

/-- Models `str.strip()`: drop whitespace from both ends. -/
def pyStrip (l : Chars) : Chars :=
  dropTrailingWS (l.dropWhile pySpace)

/-- Models `re.sub(r"\s+", " ", s).strip()`. -/
def collapseWS (l : Chars) : Chars := pyStrip (squashWS false l)

/-- NFKD decompositions of the non-ASCII characters this model covers; every
listed decomposition is fully decomposed.  ASCII characters and unlisted
characters decompose to themselves. -/
def nfkdTable : List (Char × Chars) :=
  [('ä', ['a', '̈']), ('ö', ['o', '̈']), ('ü', ['u', '̈']),
   ('Ä', ['A', '̈']), ('Ö', ['O', '̈']), ('Ü', ['U', '̈']),
   (' ', [' '])]

/-- Per-character NFKD. -/
def nfkdChar (c : Char) : Chars :=
  match nfkdTable.lookup c with
  | some d => d
  | none => [c]

/-- Models `unicodedata.normalize("NFKD", s)` over the table. -/
def nfkdStr (l : Chars) : Chars := (l.map nfkdChar).flatten

/-- The combining marks this model covers (all non-ASCII). -/
def combiningChars : Chars := ['̀', '́', '̇', '̈', '̊']

/-- Models `unicodedata.combining(ch) != 0` over the table. -/
def isCombining (c : Char) : Bool := combiningChars.contains c

/-- Models the combining-mark strip
`"".join(ch for ch in s if not unicodedata.combining(ch))`. -/
def stripCombining (l : Chars) : Chars := l.filter (fun c => !(isCombining c))

/-- Casefold mappings that expand to more than one character (only the sharp
s among the covered characters). -/
def cfTable : List (Char × Chars) := [('ß', ['s', 's'])]

/-- Single-character casefold mappings: ASCII uppercase to lowercase. -/
def upperTable : List (Char × Char) :=
  [('A', 'a'), ('B', 'b'), ('C', 'c'), ('D', 'd'), ('E', 'e'), ('F', 'f'),
   ('G', 'g'), ('H', 'h'), ('I', 'i'), ('J', 'j'), ('K', 'k'), ('L', 'l'),
   ('M', 'm'), ('N', 'n'), ('O', 'o'), ('P', 'p'), ('Q', 'q'), ('R', 'r'),
   ('S', 's'), ('T', 't'), ('U', 'u'), ('V', 'v'), ('W', 'w'), ('X', 'x'),
   ('Y', 'y'), ('Z', 'z')]

/-- Per-character `str.casefold` over the tables; unlisted characters map to
themselves. -/
def caseFoldChar (c : Char) : Chars :=
  match cfTable.lookup c with
  | some d => d
  | none =>
      match upperTable.lookup c with
      | some d => [d]
      | none => [c]

/-- Models `str.casefold()` over the tables. -/
def caseFoldStr (l : Chars) : Chars := (l.map caseFoldChar).flatten

/-- Models `norm(s)` from `build_calendar.py`: unescape, collapse and strip
whitespace, NFKD, strip combining marks, casefold. -/
def norm (l : Chars) : Chars :=
  caseFoldStr (stripCombining (nfkdStr (collapseWS (unescape l))))

/-! ## The identifier resolver `fetch_team_id`

The HTTP fetch and the `OPT_RE` scan of the HTML are factored out: the model
takes the list of `(value, label)` option pairs found in the
`cbMannschaftenFilter` block.  `stripTags` models `re.sub(r"<.*?>", "", s)`
(a tag is `<`, then characters other than LF, up to the first `>`; a `<`
with no such `>` is kept literally). -/

/-- Scan for the `>` closing a tag: return the remainder after it, or
`none` if a LF or the end of input intervenes (then the `<` is literal). -/
def findTagClose : Chars → Option Chars
  | [] => none
  | c :: rest =>
      if c = '>' then some rest
      else if c = '\n' then none
      else findTagClose rest

theorem findTagClose_length {l r : Chars} (h : findTagClose l = some r) :
    r.length < l.length + 1 := by
  induction l generalizing r with
  | nil => simp [findTagClose] at h
  | cons c rest ih =>
      simp only [findTagClose] at h
      by_cases hgt : c = '>'
      · rw [if_pos hgt] at h
        injection h with h
        subst h
        simp only [List.length_cons]
        omega
      · rw [if_neg hgt] at h
        by_cases hlf : c = '\n'
        · rw [if_pos hlf] at h
          exact absurd h (by simp)
        · rw [if_neg hlf] at h
          have := ih h
          simp only [List.length_cons]
          omega

/-- Fuelled tag stripper (fuel bounds the number of remaining characters,
so the fuelled run with fuel `length + 1` is total). -/
def stripTagsF : Nat → Chars → Chars
  | 0, l => l
  | _ + 1, [] => []
  | fuel + 1, '<' :: rest =>
      match findTagClose rest with
      | some r => stripTagsF fuel r
      | none => '<' :: stripTagsF fuel rest
  | fuel + 1, c :: rest => c :: stripTagsF fuel rest

/-- Models `re.sub(r"<.*?>", "", s)`. -/
def stripTags (l : Chars) : Chars := stripTagsF (l.length + 1) l

/-- One filtered candidate: `(label_clean, value, original_label)`, exactly
the tuple built in `fetch_team_id`. -/
def buildCandidates (opts : List (Chars × Chars)) : List (Chars × Chars × Chars) :=
  opts.filterMap (fun p =>
    let val := pyStrip p.1
    if val = s2c "-1" ∨ val = [] then none
    else some (norm (stripTags p.2), val, pyStrip (stripTags p.2)))

/-- The error message of the `RuntimeError` raised when no candidate
matches: attempted name, league id, and up to 10 sample original labels. -/
def notFoundMsg (team_name liga_id : Chars) (origLabels : List Chars) : Chars :=
  s2c "Team \x27" ++ team_name ++ s2c "\x27 nicht im Dropdown gefunden (liga_id=" ++
    liga_id ++ s2c "). Beispieloptionen: " ++
    List.intercalate (s2c ", ") (origLabels.take 10)

/-- Models `fetch_team_id(team_name, liga_id)` given the option pairs of the
fetched dropdown: exact pass on normalized labels, then substring pass, then
the `RuntimeError` (as `Except.error` carrying the message). -/
def fetch_team_id (team_name liga_id : Chars) (opts : List (Chars × Chars)) :
    Except Chars Chars :=
  let wanted := norm team_name
  let candidates := buildCandidates opts
  match candidates.find? (fun c => c.1 == wanted) with
  | some c => .ok c.2.1
  | none =>
      match candidates.find? (fun c => isSubstrOfL wanted c.1 || isSubstrOfL c.1 wanted) with
      | some c => .ok c.2.1
      | none => .error (notFoundMsg team_name liga_id (candidates.map (fun c => c.2.2)))

/-! ## Generic list lemmas for the resolver -/

theorem find?_first {α : Type} (p : α → Bool) :
    ∀ (pre : List α) (c : α) (post : List α), (∀ x ∈ pre, p x = false) → p c = true →
      (pre ++ c :: post).find? p = some c := by
  intro pre
  induction pre with
  | nil =>
      intro c post _ hc
      simpa using List.find?_cons_of_pos post hc
  | cons a pre ih =>
      intro c post hpre hc
      have ha : p a = false := hpre a (List.mem_cons_self _ _)
      rw [List.cons_append, List.find?_cons_of_neg _ (by simp [ha])]
      exact ih c post (fun x hx => hpre x (List.mem_cons_of_mem _ hx)) hc

theorem self_mem_tails (l : Chars) : l ∈ l.tails := by
  cases l <;> simp

theorem isPrefixOf_append_self (n b : Chars) : n.isPrefixOf (n ++ b) = true := by
  induction n with
  | nil => simp [List.isPrefixOf]
  | cons x xs ih => simp [List.isPrefixOf, ih]

theorem isSubstrOfL_sandwich (a n b : Chars) : isSubstrOfL n (a ++ (n ++ b)) = true := by
  rw [isSubstrOfL, List.any_eq_true]
  induction a with
  | nil => exact ⟨n ++ b, self_mem_tails _, isPrefixOf_append_self n b⟩
  | cons x a ih =>
      obtain ⟨t, ht, hp⟩ := ih
      refine ⟨t, ?_, hp⟩
      rw [List.cons_append, List.tails_cons]
      exact List.mem_cons_of_mem _ ht

/-! ## Claim C4: the resolver's two-tier match policy -/

/-- C4: over the filtered candidate list, the first pass returns the value
of the first candidate (in document order) whose normalized label equals the
normalized wanted name exactly; only when no candidate matches exactly does
the second pass return the value of the first candidate whose normalized
label is a substring of the wanted name or vice versa; on the concrete
candidates `[("425276","TSV Grombühl 2"), ("425277","TSV Grombühl")]` with
wanted `"TSV Grombühl 2"` the result is `"425276"`. -/
theorem resolver_two_tier :
    (∀ (name liga : Chars) (opts : List (Chars × Chars))
        (pre post : List (Chars × Chars × Chars)) (c : Chars × Chars × Chars),
        buildCandidates opts = pre ++ c :: post →
        (∀ x ∈ pre, x.1 ≠ norm name) → c.1 = norm name →
        fetch_team_id name liga opts = .ok c.2.1) ∧
    (∀ (name liga : Chars) (opts : List (Chars × Chars))
        (pre post : List (Chars × Chars × Chars)) (c : Chars × Chars × Chars),
        buildCandidates opts = pre ++ c :: post →
        (∀ x ∈ buildCandidates opts, x.1 ≠ norm name) →
        (∀ x ∈ pre, (isSubstrOfL (norm name) x.1 || isSubstrOfL x.1 (norm name)) = false) →
        (isSubstrOfL (norm name) c.1 || isSubstrOfL c.1 (norm name)) = true →
        fetch_team_id name liga opts = .ok c.2.1) ∧
    fetch_team_id (s2c "TSV Grombühl 2") (s2c "51127")
        [(s2c "425276", s2c "TSV Grombühl 2"), (s2c "425277", s2c "TSV Grombühl")] =
      .ok (s2c "425276") := by
  refine ⟨?_, ?_, by rfl⟩
  · intro name liga opts pre post c hsplit hpre hc
    rw [fetch_team_id]
    rw [hsplit, find?_first _ pre c post
      (fun x hx => by simpa using hpre x hx) (by simpa using hc)]
  · intro name liga opts pre post c hsplit hnone hpre hc
    rw [fetch_team_id]
    have hfind1 : (buildCandidates opts).find? (fun c => c.1 == norm name) = none := by
      rw [List.find?_eq_none]
      intro x hx
      simpa using hnone x hx
    rw [hfind1, hsplit, find?_first _ pre c post hpre hc]

/-- Witness for C4 tier structure: the substring tier fires only when the
exact tier is empty. -/
theorem resolver_two_tier_witness :
    buildCandidates [(s2c "425277", s2c "TSV Grombühl")] =
      [] ++ (s2c "tsv grombuhl", s2c "425277", s2c "TSV Grombühl") :: [] ∧
    (∀ x ∈ buildCandidates [(s2c "425277", s2c "TSV Grombühl")],
        x.1 ≠ norm (s2c "Grombühl")) ∧
    (isSubstrOfL (norm (s2c "Grombühl")) (s2c "tsv grombuhl") ||
        isSubstrOfL (s2c "tsv grombuhl") (norm (s2c "Grombühl"))) = true ∧
    fetch_team_id (s2c "Grombühl") (s2c "52205") [(s2c "425277", s2c "TSV Grombühl")] =
      .ok (s2c "425277") :=
  ⟨by decide, by decide, by decide,
    resolver_two_tier.2.1 (s2c "Grombühl") (s2c "52205") _ [] []
      (s2c "tsv grombuhl", s2c "425277", s2c "TSV Grombühl")
      (by decide) (by decide) (by decide) (by decide)⟩

/-! ## Claim C9: the resolver's failure path -/

/-- C9: when no candidate passes the exact pass nor the substring pass, the
resolver returns no team id but an error whose message contains the
attempted display name and the league id, and whose sample consists of the
first `min 10 |candidates|` original candidate labels: at most 10, and at
least one whenever candidates exist. -/
theorem resolver_not_found (name liga : Chars) (opts : List (Chars × Chars))
    (h1 : ∀ x ∈ buildCandidates opts, x.1 ≠ norm name)
    (h2 : ∀ x ∈ buildCandidates opts,
        (isSubstrOfL (norm name) x.1 || isSubstrOfL x.1 (norm name)) = false) :
    fetch_team_id name liga opts =
      .error (notFoundMsg name liga ((buildCandidates opts).map (fun c => c.2.2))) ∧
    isSubstrOfL name
      (notFoundMsg name liga ((buildCandidates opts).map (fun c => c.2.2))) = true ∧
    isSubstrOfL liga
      (notFoundMsg name liga ((buildCandidates opts).map (fun c => c.2.2))) = true ∧
    (((buildCandidates opts).map (fun c => c.2.2)).take 10).length =
      min 10 (buildCandidates opts).length := by
  refine ⟨?_, ?_, ?_, ?_⟩
  · rw [fetch_team_id]
    have hfind1 : (buildCandidates opts).find? (fun c => c.1 == norm name) = none := by
      rw [List.find?_eq_none]
      intro x hx
      simpa using h1 x hx
    have hfind2 : (buildCandidates opts).find?
        (fun c => isSubstrOfL (norm name) c.1 || isSubstrOfL c.1 (norm name)) = none := by
      rw [List.find?_eq_none]
      intro x hx
      simp [h2 x hx]
    rw [hfind1, hfind2]
  · rw [notFoundMsg]
    simpa [List.append_assoc] using isSubstrOfL_sandwich (s2c "Team \x27") name
      (s2c "\x27 nicht im Dropdown gefunden (liga_id=" ++
        (liga ++ (s2c "). Beispieloptionen: " ++
          List.intercalate (s2c ", ") ((((buildCandidates opts).map (fun c => c.2.2))).take 10))))
  · simpa [notFoundMsg, List.append_assoc] using
      isSubstrOfL_sandwich
        (s2c "Team \x27" ++ name ++ s2c "\x27 nicht im Dropdown gefunden (liga_id=") liga
        (s2c "). Beispieloptionen: " ++
          List.intercalate (s2c ", ") ((((buildCandidates opts).map (fun c => c.2.2))).take 10))
  · simp

/-- Witness for C9 at a concrete unmatched name; the candidate list is
nonempty, so the sample contains at least one label. -/
theorem resolver_not_found_witness :
    (∀ x ∈ buildCandidates [(s2c "425276", s2c "TSV Grombühl 2")],
        x.1 ≠ norm (s2c "Nobody")) ∧
    (∀ x ∈ buildCandidates [(s2c "425276", s2c "TSV Grombühl 2")],
        (isSubstrOfL (norm (s2c "Nobody")) x.1 ||
          isSubstrOfL x.1 (norm (s2c "Nobody"))) = false) ∧
    fetch_team_id (s2c "Nobody") (s2c "51127") [(s2c "425276", s2c "TSV Grombühl 2")] =
      .error (notFoundMsg (s2c "Nobody") (s2c "51127") [s2c "TSV Grombühl 2"]) ∧
    (((buildCandidates [(s2c "425276", s2c "TSV Grombühl 2")]).map
        (fun c => c.2.2)).take 10).length = 1 := by
  refine ⟨by decide, by decide, ?_, by decide⟩
  have h := resolver_not_found (s2c "Nobody") (s2c "51127")
    [(s2c "425276", s2c "TSV Grombühl 2")] (by decide) (by decide)
  rw [h.1]
  rfl

/-! ## Claim C2: idempotence of the normalizer

`norm` is NOT idempotent: entity decoding can fire again on its own output
(`&amp;amp;`), and stripping a combining mark can merge two whitespace runs
(`"a ̈ b"`).  Idempotence does hold on ampersand-free ASCII strings;
the lemmas below establish that. -/

theorem lookup_mem {β : Type} :
    ∀ (t : List (Char × β)) (c : Char) (d : β), t.lookup c = some d → (c, d) ∈ t := by
  intro t
  induction t with
  | nil => intro c d h; simp [List.lookup] at h
  | cons p t ih =>
      intro c d h
      rcases p with ⟨k, v⟩
      simp only [List.lookup] at h
      split at h
      · next heq =>
          injection h with h
          subst h
          have hk : c = k := by simpa using heq
          subst hk
          exact List.mem_cons_self _ _
      · exact List.mem_cons_of_mem _ (ih c d h)

theorem nfkdChar_ascii {c : Char} (h : c.toNat < 128) : nfkdChar c = [c] := by
  rw [nfkdChar]
  cases hl : nfkdTable.lookup c with
  | none => rfl
  | some d =>
      have hm := lookup_mem _ _ _ hl
      have hbig : ∀ p ∈ nfkdTable, 128 ≤ p.1.toNat := by decide
      have hc : 128 ≤ c.toNat := hbig _ hm
      omega

theorem isCombining_ascii {c : Char} (h : c.toNat < 128) : isCombining c = false := by
  rw [isCombining]
  cases hc : combiningChars.contains c with
  | false => rfl
  | true =>
      have hm : c ∈ combiningChars := by
        simpa using hc
      have hbig : ∀ x ∈ combiningChars, 128 ≤ x.toNat := by decide
      have := hbig c hm
      omega

/-- The single-character part of the casefold model. -/
def lowChar (c : Char) : Char :=
  match upperTable.lookup c with
  | some d => d
  | none => c

theorem caseFoldChar_ascii {c : Char} (h : c.toNat < 128) : caseFoldChar c = [lowChar c] := by
  rw [caseFoldChar, lowChar]
  have hcf : cfTable.lookup c = none := by
    cases hl : cfTable.lookup c with
    | none => rfl
    | some d =>
        have hm := lookup_mem _ _ _ hl
        have hbig : ∀ p ∈ cfTable, 128 ≤ p.1.toNat := by decide
        have hc : 128 ≤ c.toNat := hbig _ hm
        omega
  rw [hcf]
  cases upperTable.lookup c <;> rfl

theorem lowChar_ascii {c : Char} (h : c.toNat < 128) : (lowChar c).toNat < 128 := by
  rw [lowChar]
  cases hl : upperTable.lookup c with
  | none => exact h
  | some d =>
      have hm := lookup_mem _ _ _ hl
      have hsmall : ∀ p ∈ upperTable, p.2.toNat < 128 := by decide
      exact hsmall _ hm

theorem lowChar_ne_amp {c : Char} (h : c ≠ '&') : lowChar c ≠ '&' := by
  rw [lowChar]
  cases hl : upperTable.lookup c with
  | none => exact h
  | some d =>
      have hm := lookup_mem _ _ _ hl
      have hval : ∀ p ∈ upperTable, p.2 ≠ '&' := by decide
      exact hval _ hm

theorem pySpace_lowChar (c : Char) : pySpace (lowChar c) = pySpace c := by
  rw [lowChar]
  cases hl : upperTable.lookup c with
  | none => rfl
  | some d =>
      have hm := lookup_mem _ _ _ hl
      have hns : ∀ p ∈ upperTable, pySpace p.1 = false ∧ pySpace p.2 = false := by decide
      rw [(hns _ hm).1, (hns _ hm).2]

theorem lowChar_idem (c : Char) : lowChar (lowChar c) = lowChar c := by
  cases hl : upperTable.lookup c with
  | none =>
      have hc : lowChar c = c := by rw [lowChar, hl]
      rw [hc, hc]
  | some d =>
      have hc : lowChar c = d := by rw [lowChar, hl]
      have hm := lookup_mem _ _ _ hl
      have hfix : ∀ p ∈ upperTable, upperTable.lookup p.2 = none := by decide
      rw [hc, lowChar, hfix _ hm]

/-! ### Unescape is the identity on ampersand-free strings -/

theorem unescapeF_id : ∀ (fuel : Nat) (l : Chars), (∀ c ∈ l, c ≠ '&') →
    unescapeF fuel l = l := by
  intro fuel
  induction fuel with
  | zero => intro l _; rfl
  | succ n ih =>
      intro l hl
      cases l with
      | nil => rfl
      | cons c rest =>
          have hc : c ≠ '&' := hl c (List.mem_cons_self _ _)
          have hrest : ∀ d ∈ rest, d ≠ '&' := fun d hd => hl d (List.mem_cons_of_mem _ hd)
          rcases rest with _ | ⟨c1, _ | ⟨c2, _ | ⟨c3, _ | ⟨c4, rest2⟩⟩⟩⟩
          · simp only [unescapeF]
            rw [ih _ hrest]
          · simp only [unescapeF]
            rw [ih _ hrest]
          · simp only [unescapeF]
            rw [ih _ hrest]
          · simp only [unescapeF]
            rw [ih _ hrest]
          · simp only [unescapeF]
            rw [if_neg (by simp [hc]), ih _ hrest]

theorem unescape_id {l : Chars} (h : ∀ c ∈ l, c ≠ '&') : unescape l = l :=
  unescapeF_id l.length l h

/-! ### Whitespace canonical form -/

/-- All whitespace characters in `l` are plain spaces. -/
def AllWS1 (l : Chars) : Prop := ∀ c ∈ l, pySpace c = true → c = ' '

/-- No two adjacent characters of `l` are both spaces. -/
def noDbl : Chars → Bool
  | a :: b :: rest => !(a = ' ' && b = ' ') && noDbl (b :: rest)
  | _ => true

/-- The last character of `l`, if any, is not whitespace. -/
def noTrailWS : Chars → Bool
  | [] => true
  | [c] => !pySpace c
  | _ :: rest => noTrailWS rest

theorem noDbl_tail {a : Char} {l : Chars} (h : noDbl (a :: l) = true) : noDbl l = true := by
  cases l with
  | nil => rfl
  | cons b rest =>
      simp only [noDbl, Bool.and_eq_true] at h
      exact h.2

theorem noDbl_cons (a : Char) (l : Chars) (h2 : noDbl l = true)
    (h1 : a ≠ ' ' ∨ l.head? ≠ some ' ') : noDbl (a :: l) = true := by
  cases l with
  | nil => rfl
  | cons y ys =>
      have hy : ¬(a = ' ' ∧ y = ' ') := by
        rcases h1 with h | h
        · exact fun hc => h hc.1
        · exact fun hc => h (by simp [hc.2])
      simp only [noDbl, Bool.and_eq_true, Bool.not_eq_true']
      refine ⟨?_, h2⟩
      rcases Decidable.em (a = ' ') with ha | ha
      · have hys : ¬(y = ' ') := fun hc => hy ⟨ha, hc⟩
        simp [hys]
      · simp [ha]

theorem mem_squashWS : ∀ (prev : Bool) (l : Chars) (c : Char), c ∈ squashWS prev l →
    c = ' ' ∨ (c ∈ l ∧ pySpace c = false) := by
  intro prev l
  induction l generalizing prev with
  | nil => intro c h; simp [squashWS] at h
  | cons a rest ih =>
      intro c h
      simp only [squashWS] at h
      by_cases hpa : pySpace a
      · rw [if_pos hpa] at h
        cases prev with
        | true =>
            rw [if_pos rfl] at h
            rcases ih true c h with h' | ⟨hm, hs⟩
            · exact Or.inl h'
            · exact Or.inr ⟨List.mem_cons_of_mem _ hm, hs⟩
        | false =>
            rw [if_neg (by simp)] at h
            rcases List.mem_cons.mp h with rfl | h'
            · exact Or.inl rfl
            · rcases ih true c h' with h'' | ⟨hm, hs⟩
              · exact Or.inl h''
              · exact Or.inr ⟨List.mem_cons_of_mem _ hm, hs⟩
      · rw [if_neg hpa] at h
        rcases List.mem_cons.mp h with rfl | h'
        · exact Or.inr ⟨List.mem_cons_self _ _, by simpa using hpa⟩
        · rcases ih false c h' with h'' | ⟨hm, hs⟩
          · exact Or.inl h''
          · exact Or.inr ⟨List.mem_cons_of_mem _ hm, hs⟩

theorem squash_noDbl : ∀ l : Chars,
    (noDbl (squashWS true l) = true ∧ (squashWS true l).head? ≠ some ' ') ∧
    noDbl (squashWS false l) = true := by
  intro l
  induction l with
  | nil => exact ⟨⟨rfl, by simp [squashWS]⟩, rfl⟩
  | cons a rest ih =>
      obtain ⟨⟨ht, hh⟩, hf⟩ := ih
      by_cases hpa : pySpace a
      · have e1 : squashWS true (a :: rest) = squashWS true rest := by
          simp only [squashWS, if_pos hpa]
          simp
        have e2 : squashWS false (a :: rest) = ' ' :: squashWS true rest := by
          simp only [squashWS, if_pos hpa]
          simp
        refine ⟨⟨by rw [e1]; exact ht, by rw [e1]; exact hh⟩, ?_⟩
        rw [e2]
        exact noDbl_cons _ _ ht (Or.inr hh)
      · have ha' : a ≠ ' ' := fun hc => hpa (by rw [hc]; decide)
        have e : ∀ p : Bool, squashWS p (a :: rest) = a :: squashWS false rest := by
          intro p
          simp only [squashWS, if_neg hpa]
        refine ⟨⟨?_, ?_⟩, ?_⟩
        · rw [e true]
          exact noDbl_cons _ _ hf (Or.inl ha')
        · rw [e true]
          simp [ha']
        · rw [e false]
          exact noDbl_cons _ _ hf (Or.inl ha')

theorem head_dropWhile_pySpace : ∀ (l : Chars) (c : Char),
    (l.dropWhile pySpace).head? = some c → pySpace c = false := by
  intro l
  induction l with
  | nil => intro c h; simp at h
  | cons a rest ih =>
      intro c h
      rw [List.dropWhile_cons] at h
      by_cases hpa : pySpace a
      · rw [if_pos hpa] at h
        exact ih c h
      · rw [if_neg hpa] at h
        have : a = c := by simpa using h
        subst this
        simpa using hpa

theorem noDbl_dropWhile (l : Chars) (h : noDbl l = true) :
    noDbl (l.dropWhile pySpace) = true := by
  induction l with
  | nil => exact h
  | cons a rest ih =>
      rw [List.dropWhile_cons]
      by_cases hpa : pySpace a
      · rw [if_pos hpa]
        exact ih (noDbl_tail h)
      · rw [if_neg hpa]
        exact h

theorem mem_dropWhile_pySpace {c : Char} : ∀ l : Chars, c ∈ l.dropWhile pySpace → c ∈ l := by
  intro l
  induction l with
  | nil => intro h; exact h
  | cons a rest ih =>
      intro h
      rw [List.dropWhile_cons] at h
      by_cases hpa : pySpace a
      · rw [if_pos hpa] at h
        exact List.mem_cons_of_mem _ (ih h)
      · rw [if_neg hpa] at h
        exact h

theorem dropTrailing_nil_or_head : ∀ l : Chars,
    dropTrailingWS l = [] ∨ (dropTrailingWS l).head? = l.head? := by
  intro l
  cases l with
  | nil => exact Or.inl rfl
  | cons c rest =>
      simp only [dropTrailingWS]
      cases hr : dropTrailingWS rest with
      | nil =>
          by_cases hpc : pySpace c
          · rw [if_pos hpc]
            exact Or.inl rfl
          · rw [if_neg hpc]
            exact Or.inr rfl
      | cons x xs => exact Or.inr rfl

theorem mem_dropTrailing {c : Char} : ∀ l : Chars, c ∈ dropTrailingWS l → c ∈ l := by
  intro l
  induction l with
  | nil => intro h; simp [dropTrailingWS] at h
  | cons a rest ih =>
      intro h
      simp only [dropTrailingWS] at h
      revert h
      cases hr : dropTrailingWS rest with
      | nil =>
          by_cases hpa : pySpace a
          · rw [if_pos hpa]
            intro h
            simp at h
          · rw [if_neg hpa]
            intro h
            have : c = a := by simpa using h
            subst this
            exact List.mem_cons_self _ _
      | cons x xs =>
          intro h
          rcases List.mem_cons.mp h with rfl | h'
          · exact List.mem_cons_self _ _
          · exact List.mem_cons_of_mem _ (ih (hr ▸ h'))

theorem noDbl_dropTrailing : ∀ l : Chars, noDbl l = true → noDbl (dropTrailingWS l) = true := by
  intro l
  induction l with
  | nil => intro h; exact h
  | cons a rest ih =>
      intro h
      simp only [dropTrailingWS]
      cases hr : dropTrailingWS rest with
      | nil =>
          by_cases hpa : pySpace a
          · rw [if_pos hpa]; rfl
          · rw [if_neg hpa]; rfl
      | cons x xs =>
          have hnd : noDbl (x :: xs) = true := hr ▸ ih (noDbl_tail h)
          apply noDbl_cons _ _ hnd
          rcases dropTrailing_nil_or_head rest with h0 | h0
          · rw [hr] at h0; cases h0
          · rw [hr] at h0
            cases rest with
            | nil => simp at h0
            | cons y ys =>
                have hxy : x = y := by simpa using h0
                subst hxy
                simp only [noDbl, Bool.and_eq_true, Bool.not_eq_true'] at h
                by_cases ha : a = ' '
                · right
                  have hx : ¬(x = ' ') := by
                    intro hc
                    rw [ha, hc] at h
                    simpa using h.1
                  simp [hx]
                · exact Or.inl ha

theorem noTrail_dropTrailing : ∀ l : Chars, noTrailWS (dropTrailingWS l) = true := by
  intro l
  induction l with
  | nil => rfl
  | cons a rest ih =>
      simp only [dropTrailingWS]
      cases hr : dropTrailingWS rest with
      | nil =>
          by_cases hpa : pySpace a
          · rw [if_pos hpa]; rfl
          · rw [if_neg hpa]
            simp [noTrailWS, hpa]
      | cons x xs =>
          have := hr ▸ ih
          simpa [noTrailWS] using this

theorem dropTrailing_id : ∀ l : Chars, noTrailWS l = true → dropTrailingWS l = l := by
  intro l
  induction l with
  | nil => intro _; rfl
  | cons a rest ih =>
      intro h
      cases rest with
      | nil =>
          have hpa : pySpace a = false := by simpa [noTrailWS] using h
          simp [dropTrailingWS, hpa]
      | cons b bs =>
          have hrest : noTrailWS (b :: bs) = true := by simpa [noTrailWS] using h
          have hr : dropTrailingWS (b :: bs) = b :: bs := ih hrest
          rw [dropTrailingWS, hr]

theorem dropWhile_id_of_head {l : Chars}
    (h : ∀ c, l.head? = some c → pySpace c = false) : l.dropWhile pySpace = l := by
  cases l with
  | nil => rfl
  | cons a rest =>
      rw [List.dropWhile_cons, if_neg (by simp [h a rfl])]

theorem squash_fix : ∀ l : Chars, AllWS1 l → noDbl l = true →
    (squashWS false l = l ∧ (l.head? ≠ some ' ' → squashWS true l = l)) := by
  intro l
  induction l with
  | nil => intro _ _; exact ⟨rfl, fun _ => rfl⟩
  | cons a rest ih =>
      intro hP hD
      have hPrest : AllWS1 rest := fun c hc hs => hP c (List.mem_cons_of_mem _ hc) hs
      have hDrest : noDbl rest = true := noDbl_tail hD
      obtain ⟨ihf, iht⟩ := ih hPrest hDrest
      by_cases hpa : pySpace a
      · have ha : a = ' ' := hP a (List.mem_cons_self _ _) hpa
        subst ha
        have hhead : rest.head? ≠ some ' ' := by
          cases rest with
          | nil => simp
          | cons b bs =>
              simp only [noDbl, Bool.and_eq_true, Bool.not_eq_true'] at hD
              intro hc
              have hb : b = ' ' := by simpa using hc
              rw [hb] at hD
              simpa using hD.1
        have e2 : squashWS false (' ' :: rest) = ' ' :: squashWS true rest := by
          simp only [squashWS, if_pos hpa]
          simp
        refine ⟨by rw [e2, iht hhead], fun hcontra => (hcontra rfl).elim⟩
      · have e : ∀ p : Bool, squashWS p (a :: rest) = a :: squashWS false rest := by
          intro p
          simp only [squashWS, if_neg hpa]
        exact ⟨by rw [e false, ihf], fun _ => by rw [e true, ihf]⟩

theorem collapse_AllWS1 (l : Chars) : AllWS1 (collapseWS l) := by
  intro c hc hs
  have h1 : c ∈ (squashWS false l).dropWhile pySpace := mem_dropTrailing _ hc
  have h2 : c ∈ squashWS false l := mem_dropWhile_pySpace _ h1
  rcases mem_squashWS false l c h2 with h | ⟨_, hns⟩
  · exact h
  · rw [hs] at hns
    cases hns

theorem collapse_noDbl (l : Chars) : noDbl (collapseWS l) = true :=
  noDbl_dropTrailing _ (noDbl_dropWhile _ (squash_noDbl l).2)

theorem collapse_head (l : Chars) :
    ∀ c, (collapseWS l).head? = some c → pySpace c = false := by
  intro c hc
  rcases dropTrailing_nil_or_head ((squashWS false l).dropWhile pySpace) with h0 | h0
  · rw [collapseWS, pyStrip, h0] at hc
    simp at hc
  · rw [collapseWS, pyStrip, h0] at hc
    exact head_dropWhile_pySpace _ c hc

theorem collapse_noTrail (l : Chars) : noTrailWS (collapseWS l) = true :=
  noTrail_dropTrailing _

theorem collapse_idem (l : Chars) : collapseWS (collapseWS l) = collapseWS l := by
  have h1 : squashWS false (collapseWS l) = collapseWS l :=
    (squash_fix _ (collapse_AllWS1 l) (collapse_noDbl l)).1
  have h2 : (collapseWS l).dropWhile pySpace = collapseWS l :=
    dropWhile_id_of_head (collapse_head l)
  calc collapseWS (collapseWS l)
      = dropTrailingWS ((squashWS false (collapseWS l)).dropWhile pySpace) := rfl
    _ = dropTrailingWS ((collapseWS l).dropWhile pySpace) := by rw [h1]
    _ = dropTrailingWS (collapseWS l) := by rw [h2]
    _ = collapseWS l := dropTrailing_id _ (collapse_noTrail l)

/-! ### The remaining normalizer stages on ASCII input -/

theorem flatten_map_singleton {f : Char → Chars} :
    ∀ l : Chars, (∀ c ∈ l, f c = [c]) → (l.map f).flatten = l := by
  intro l
  induction l with
  | nil => intro _; rfl
  | cons c rest ih =>
      intro h
      rw [List.map_cons, List.flatten_cons, h c (List.mem_cons_self _ _),
        ih (fun d hd => h d (List.mem_cons_of_mem _ hd))]
      rfl

theorem nfkdStr_ascii {l : Chars} (h : ∀ c ∈ l, c.toNat < 128) : nfkdStr l = l :=
  flatten_map_singleton l (fun c hc => nfkdChar_ascii (h c hc))

theorem stripCombining_ascii {l : Chars} (h : ∀ c ∈ l, c.toNat < 128) :
    stripCombining l = l := by
  rw [stripCombining]
  refine List.filter_eq_self.mpr (fun c hc => ?_)
  simp [isCombining_ascii (h c hc)]

theorem caseFoldStr_ascii {l : Chars} (h : ∀ c ∈ l, c.toNat < 128) :
    caseFoldStr l = l.map lowChar := by
  rw [caseFoldStr]
  induction l with
  | nil => rfl
  | cons c rest ih =>
      rw [List.map_cons, List.flatten_cons, caseFoldChar_ascii (h c (List.mem_cons_self _ _)),
        ih (fun d hd => h d (List.mem_cons_of_mem _ hd)), List.map_cons]
      rfl

theorem lowChar_space : lowChar ' ' = ' ' := by decide

theorem squash_map_lowChar : ∀ (prev : Bool) (l : Chars),
    squashWS prev (l.map lowChar) = (squashWS prev l).map lowChar := by
  intro prev l
  induction l generalizing prev with
  | nil => rfl
  | cons a rest ih =>
      rw [List.map_cons]
      by_cases hpa : pySpace a
      · have hpl : pySpace (lowChar a) = true := by rw [pySpace_lowChar]; exact hpa
        cases prev with
        | true =>
            have e1 : squashWS true (lowChar a :: rest.map lowChar) =
                squashWS true (rest.map lowChar) := by
              simp only [squashWS, if_pos hpl]
              simp
            have e2 : squashWS true (a :: rest) = squashWS true rest := by
              simp only [squashWS, if_pos hpa]
              simp
            rw [e1, e2, ih true]
        | false =>
            have e1 : squashWS false (lowChar a :: rest.map lowChar) =
                ' ' :: squashWS true (rest.map lowChar) := by
              simp only [squashWS, if_pos hpl]
              simp
            have e2 : squashWS false (a :: rest) = ' ' :: squashWS true rest := by
              simp only [squashWS, if_pos hpa]
              simp
            rw [e1, e2, ih true, List.map_cons, lowChar_space]
      · have hpl : pySpace (lowChar a) = false := by rw [pySpace_lowChar]; simpa using hpa
        have e1 : squashWS prev (lowChar a :: rest.map lowChar) =
            lowChar a :: squashWS false (rest.map lowChar) := by
          simp only [squashWS]
          rw [if_neg (by simp [hpl])]
        have e2 : squashWS prev (a :: rest) = a :: squashWS false rest := by
          simp only [squashWS, if_neg hpa]
        rw [e1, e2, ih false, List.map_cons]

theorem dropWhile_map_lowChar : ∀ l : Chars,
    (l.map lowChar).dropWhile pySpace = (l.dropWhile pySpace).map lowChar := by
  intro l
  induction l with
  | nil => rfl
  | cons a rest ih =>
      rw [List.map_cons, List.dropWhile_cons, List.dropWhile_cons]
      by_cases hpa : pySpace a
      · rw [if_pos (by rw [pySpace_lowChar]; exact hpa), if_pos hpa]
        exact ih
      · rw [if_neg (by rw [pySpace_lowChar]; exact hpa), if_neg hpa, List.map_cons]

theorem dropTrailing_map_lowChar : ∀ l : Chars,
    dropTrailingWS (l.map lowChar) = (dropTrailingWS l).map lowChar := by
  intro l
  induction l with
  | nil => rfl
  | cons a rest ih =>
      rw [List.map_cons, dropTrailingWS, dropTrailingWS, ih]
      cases hr : dropTrailingWS rest with
      | nil =>
          rw [List.map_nil]
          by_cases hpa : pySpace a
          · rw [if_pos (by rw [pySpace_lowChar]; exact hpa), if_pos hpa]
            rfl
          · rw [if_neg (by rw [pySpace_lowChar]; exact hpa), if_neg hpa]
            rfl
      | cons x xs => rfl

theorem collapse_map_lowChar (l : Chars) :
    collapseWS (l.map lowChar) = (collapseWS l).map lowChar := by
  rw [collapseWS, collapseWS, pyStrip, pyStrip, squash_map_lowChar,
    dropWhile_map_lowChar, dropTrailing_map_lowChar]

theorem collapse_chars {l : Chars} (P : Char → Prop) (hsp : P ' ') (h : ∀ c ∈ l, P c) :
    ∀ c ∈ collapseWS l, P c := by
  intro c hc
  have h2 : c ∈ squashWS false l := mem_dropWhile_pySpace _ (mem_dropTrailing _ hc)
  rcases mem_squashWS false l c h2 with rfl | ⟨hm, _⟩
  · exact hsp
  · exact h c hm

/-! ### Settling claim C2 -/

/-- C2 counterexample: `norm` is not idempotent.  First, entity decoding can
fire twice: `norm("&amp;amp;") = "&amp;"` but `norm("&amp;") = "&"`.
Second, stripping a combining mark can merge two whitespace runs:
`norm("a ̈ b") = "a  b"` (double space) but normalizing again collapses
it to `"a b"`. -/
theorem norm_idempotent_counterexample :
    norm (norm (s2c "&amp;amp;")) ≠ norm (s2c "&amp;amp;") ∧
    norm (norm ['a', ' ', '̈', ' ', 'b']) ≠ norm ['a', ' ', '̈', ' ', 'b'] := by
  refine ⟨by decide, by decide⟩

/-- C2 amended: `norm` is idempotent on ASCII strings that contain no
ampersand (so entity decoding is inert and no combining mark or exotic
whitespace is present): for such `s`, `norm (norm s) = norm s`. -/
theorem norm_idempotent_amended (l : Chars)
    (h : ∀ c ∈ l, c.toNat < 128 ∧ c ≠ '&') : norm (norm l) = norm l := by
  have hA : ∀ c ∈ l, c.toNat < 128 := fun c hc => (h c hc).1
  have hAmp : ∀ c ∈ l, c ≠ '&' := fun c hc => (h c hc).2
  have h1 : unescape l = l := unescape_id hAmp
  have hWascii : ∀ c ∈ collapseWS l, c.toNat < 128 := collapse_chars _ (by decide) hA
  have e1 : norm l = (collapseWS l).map lowChar := by
    rw [norm, h1, nfkdStr_ascii hWascii, stripCombining_ascii hWascii, caseFoldStr_ascii hWascii]
  have hM : ∀ c ∈ (collapseWS l).map lowChar, c.toNat < 128 ∧ c ≠ '&' := by
    intro c hc
    rcases List.mem_map.mp hc with ⟨d, hd, rfl⟩
    have hd128 := hWascii d hd
    have hdamp : d ≠ '&' := collapse_chars (fun c => c ≠ '&') (by decide) hAmp d hd
    exact ⟨lowChar_ascii hd128, lowChar_ne_amp hdamp⟩
  have hMascii : ∀ c ∈ (collapseWS l).map lowChar, c.toNat < 128 := fun c hc => (hM c hc).1
  have h2 : unescape ((collapseWS l).map lowChar) = (collapseWS l).map lowChar :=
    unescape_id (fun c hc => (hM c hc).2)
  have h3 : collapseWS ((collapseWS l).map lowChar) = (collapseWS l).map lowChar := by
    rw [collapse_map_lowChar, collapse_idem]
  have hMascii2 : ∀ c ∈ collapseWS ((collapseWS l).map lowChar), c.toNat < 128 := by
    rw [h3]; exact hMascii
  rw [e1, norm, h2, nfkdStr_ascii hMascii2, stripCombining_ascii hMascii2,
    caseFoldStr_ascii hMascii2, h3, List.map_map]
  exact List.map_congr_left (fun c _ => lowChar_idem c)

/-- Witness for the amended C2 at a concrete ASCII string. -/
theorem norm_idempotent_amended_witness :
    (∀ c ∈ s2c "  TSV   GROMBUEHL  2 ", c.toNat < 128 ∧ c ≠ '&') ∧
    norm (norm (s2c "  TSV   GROMBUEHL  2 ")) = norm (s2c "  TSV   GROMBUEHL  2 ") :=
  ⟨by decide, norm_idempotent_amended _ (by decide)⟩

/-! ## Claim C1: global UID uniqueness of the merged output

The per-target loop of `main`, with the network-derived inputs (resolved
team id and extracted event list) made explicit. -/

/-- One configured target together with the data `main` obtains for it:
the resolved `ms_liga_id` and the events extracted from its feed. -/
structure TargetData where
  team_name : Chars
  liga_id : Chars
  ms_id : Chars
  events : List (List Chars)

/-- The namespace string `f"liga{liga_id}-team{ms_id}"` of `main`. -/
def mkNamespace (t : TargetData) : Chars :=
  s2c "liga" ++ t.liga_id ++ s2c "-team" ++ t.ms_id

/-- The per-event transformation of `main`: UID namespacing followed by
summary annotation. -/
def transformEvent (hashFn : Chars → Nat) (t : TargetData) (ev : List Chars) : List Chars :=
  annotateSummary t.team_name (prefixUid hashFn ev (mkNamespace t))

/-- The merged, deduplicated event list `main` writes between header and
footer. -/
def mainMerge (hashFn : Chars → Nat) (targets : List TargetData) : List (List Chars) :=
  dedupe ((targets.map (fun t => t.events.map (transformEvent hashFn t))).flatten)

/-- The value of the first `UID:` field of a record, when one exists. -/
def uidValue (ev : List Chars) : Option Chars :=
  (ev.find? uidMatch).map (fun l => l.drop 4)

theorem uidMatch_uidRewrite (pfx l : Chars) : uidMatch (uidRewrite pfx l) = uidMatch l := by
  rw [uidRewrite]
  by_cases hm : uidMatch l
  · rw [if_pos hm, hm]
    rw [uidMatch, Bool.and_eq_true]
    constructor
    · simp only [List.append_assoc]
      exact isPrefixOf_append_self _ _
    · simp only [List.length_append, decide_eq_true_eq]
      have h1 : (s2c "UID:").length = 4 := rfl
      have h2 : (s2c "-").length = 1 := rfl
      rw [h1, h2]
      omega
  · rw [if_neg hm]

theorem summaryMatch_of_uid_head (X : Chars) : summaryMatch (s2c "UID:" ++ X) = false := by
  rw [summaryMatch]
  have hpre : (s2c "SUMMARY:").isPrefixOf (s2c "UID:" ++ X) = false := rfl
  rw [hpre, Bool.false_and]

theorem uidMatch_summaryRewrite (team l : Chars) :
    uidMatch (summaryRewrite team l) = uidMatch l := by
  rw [summaryRewrite]
  by_cases hs : summaryMatch l
  · rw [if_pos hs]
    rw [summaryMatch, Bool.and_eq_true] at hs
    have hpre := hs.1
    rcases (List.isPrefixOf_iff_prefix.mp hpre) with ⟨t, rfl⟩
    have h1 : uidMatch (s2c "SUMMARY:" ++ t) = false := by
      rw [uidMatch]
      have hp : (s2c "UID:").isPrefixOf (s2c "SUMMARY:" ++ t) = false := rfl
      rw [hp, Bool.false_and]
    have h2 : uidMatch (s2c "SUMMARY:" ++ t ++ s2c " [" ++ team ++ s2c "]") = false := by
      rw [uidMatch]
      have hp : (s2c "UID:").isPrefixOf (s2c "SUMMARY:" ++ t ++ s2c " [" ++ team ++ s2c "]") =
          false := rfl
      rw [hp, Bool.false_and]
    rw [h1, h2]
  · rw [if_neg hs]

theorem find?_map_statusPreserving {q : Chars → Bool} {f : Chars → Chars}
    (hf : ∀ l, q (f l) = q l) :
    ∀ ev : List Chars, (ev.map f).find? q = (ev.find? q).map f := by
  intro ev
  induction ev with
  | nil => rfl
  | cons a rest ih =>
      rw [List.map_cons]
      by_cases ha : q a
      · rw [List.find?_cons_of_pos _ (by rw [hf]; exact ha), List.find?_cons_of_pos _ ha]
        rfl
      · rw [List.find?_cons_of_neg _ (by rw [hf]; simpa using ha),
          List.find?_cons_of_neg _ (by simpa using ha), ih]

/-- The UID value of a transformed record: the namespace string, a dash,
then the original first UID value. -/
theorem uidValue_transformEvent (hashFn : Chars → Nat) (t : TargetData) (ev : List Chars)
    {u : Chars} (hfind : ev.find? uidMatch = some u) :
    uidValue (transformEvent hashFn t ev) = some (mkNamespace t ++ '-' :: u.drop 4) := by
  have hu : uidMatch u = true := List.find?_some hfind
  have humem : u ∈ ev := List.mem_of_find?_eq_some hfind
  have hcont : containsUIDColon ev = true :=
    containsUIDColon_of_mem humem (isSubstrOfL_of_uidMatch hu)
  rw [transformEvent, annotateSummary, prefixUid, if_pos hcont, uidValue,
    find?_map_statusPreserving (uidMatch_summaryRewrite t.team_name),
    find?_map_statusPreserving (uidMatch_uidRewrite (mkNamespace t)), hfind]
  have hrw : uidRewrite (mkNamespace t) u =
      s2c "UID:" ++ (mkNamespace t ++ '-' :: u.drop 4) := by
    rw [uidRewrite, if_pos hu]
    simp [List.append_assoc]
    rfl
  rw [Option.map_some', Option.map_some', hrw,
    summaryRewrite, if_neg (by simp [summaryMatch_of_uid_head]), Option.map_some']
  congr 1

theorem digits_takeWhile (d : Chars) (rest : Chars) (hd : ∀ c ∈ d, c.isDigit = true) :
    (d ++ '-' :: rest).takeWhile (fun c => c.isDigit) = d ∧
    (d ++ '-' :: rest).dropWhile (fun c => c.isDigit) = '-' :: rest := by
  induction d with
  | nil =>
      constructor
      · rw [List.nil_append, List.takeWhile_cons, if_neg (by simp)]
      · rw [List.nil_append, List.dropWhile_cons, if_neg (by simp)]
  | cons c d ih =>
      have hc : c.isDigit = true := hd c (List.mem_cons_self _ _)
      obtain ⟨ih1, ih2⟩ := ih (fun x hx => hd x (List.mem_cons_of_mem _ hx))
      constructor
      · rw [List.cons_append, List.takeWhile_cons, if_pos (by simp [hc]), ih1]
      · rw [List.cons_append, List.dropWhile_cons, if_pos (by simp [hc]), ih2]

/-- Injectivity of the namespaced UID value in the league id, team id and
original UID value, for digit-string ids. -/
theorem uidValue_parts_injective (l1 m1 u1 l2 m2 u2 : Chars)
    (hl1 : ∀ c ∈ l1, c.isDigit = true) (hm1 : ∀ c ∈ m1, c.isDigit = true)
    (hl2 : ∀ c ∈ l2, c.isDigit = true) (hm2 : ∀ c ∈ m2, c.isDigit = true)
    (h : s2c "liga" ++ l1 ++ s2c "-team" ++ m1 ++ '-' :: u1 =
         s2c "liga" ++ l2 ++ s2c "-team" ++ m2 ++ '-' :: u2) :
    l1 = l2 ∧ m1 = m2 ∧ u1 = u2 := by
  have h' : l1 ++ '-' :: (s2c "team" ++ (m1 ++ '-' :: u1)) =
      l2 ++ '-' :: (s2c "team" ++ (m2 ++ '-' :: u2)) := by
    have := h
    simp only [s2c, List.append_assoc] at this ⊢
    simpa [String.toList] using this
  have htw1 := digits_takeWhile l1 (s2c "team" ++ (m1 ++ '-' :: u1)) hl1
  have htw2 := digits_takeWhile l2 (s2c "team" ++ (m2 ++ '-' :: u2)) hl2
  have hll : l1 = l2 := by
    have := congrArg (List.takeWhile (fun c => c.isDigit)) h'
    rw [htw1.1, htw2.1] at this
    exact this
  have hrest : '-' :: (s2c "team" ++ (m1 ++ '-' :: u1)) =
      '-' :: (s2c "team" ++ (m2 ++ '-' :: u2)) := by
    have := congrArg (List.dropWhile (fun c => c.isDigit)) h'
    rw [htw1.2, htw2.2] at this
    exact this
  have hrest2 : m1 ++ '-' :: u1 = m2 ++ '-' :: u2 := by
    have := hrest
    simp only [s2c] at this
    simpa [String.toList] using this
  have htw3 := digits_takeWhile m1 u1 hm1
  have htw4 := digits_takeWhile m2 u2 hm2
  have hmm : m1 = m2 := by
    have := congrArg (List.takeWhile (fun c => c.isDigit)) hrest2
    rw [htw3.1, htw4.1] at this
    exact this
  have huu : u1 = u2 := by
    have := congrArg (List.dropWhile (fun c => c.isDigit)) hrest2
    rw [htw3.2, htw4.2] at this
    simpa using this
  exact ⟨hll, hmm, huu⟩

/-- C1 counterexample: two events of the same feed that share a UID value
but differ elsewhere (here in SUMMARY) are both kept by the exact-text
dedupe, and both carry the same namespaced UID value in the final output:
the prefixing does not enforce global UID uniqueness. -/
theorem uid_uniqueness_counterexample :
    (mainMerge (fun _ => 0)
        [⟨s2c "T", s2c "1", s2c "2",
          [[s2c "BEGIN:VEVENT", s2c "UID:7", s2c "SUMMARY:A", s2c "END:VEVENT"],
           [s2c "BEGIN:VEVENT", s2c "UID:7", s2c "SUMMARY:B", s2c "END:VEVENT"]]⟩]).map
        uidValue =
      [some (s2c "liga1-team2-7"), some (s2c "liga1-team2-7")] ∧
    (mainMerge (fun _ => 0)
        [⟨s2c "T", s2c "1", s2c "2",
          [[s2c "BEGIN:VEVENT", s2c "UID:7", s2c "SUMMARY:A", s2c "END:VEVENT"],
           [s2c "BEGIN:VEVENT", s2c "UID:7", s2c "SUMMARY:B", s2c "END:VEVENT"]]⟩])[0]? ≠
    (mainMerge (fun _ => 0)
        [⟨s2c "T", s2c "1", s2c "2",
          [[s2c "BEGIN:VEVENT", s2c "UID:7", s2c "SUMMARY:A", s2c "END:VEVENT"],
           [s2c "BEGIN:VEVENT", s2c "UID:7", s2c "SUMMARY:B", s2c "END:VEVENT"]]⟩])[1]? := by
  refine ⟨by decide, by decide⟩

/-- C1 amended: in the final merged output, the (first) UID field value
determines the record — i.e. all distinct output records carry distinct UID
values — provided the namespacing can do its job: the league and team ids
are digit strings, distinct targets have distinct (league id, team id)
pairs, every extracted event has a proper `UID:` line, and within each
single feed the original UID values are distinct.  (Without these
hypotheses the claim fails, see the counterexample; events lacking a UID
line get one synthesized from a hash, which is collision-free only
heuristically.) -/
theorem mainMerge_uid_injective (hashFn : Chars → Nat) (targets : List TargetData)
    (hdig : ∀ t ∈ targets,
      (∀ c ∈ t.liga_id, c.isDigit = true) ∧ (∀ c ∈ t.ms_id, c.isDigit = true))
    (hnodup : (targets.map (fun t => (t.liga_id, t.ms_id))).Nodup)
    (huid : ∀ t ∈ targets, ∀ ev ∈ t.events, ∃ l ∈ ev, uidMatch l = true)
    (hdist : ∀ t ∈ targets, ∀ ev ∈ t.events, ∀ ev2 ∈ t.events,
      uidValue ev = uidValue ev2 → ev = ev2) :
    ∀ a ∈ mainMerge hashFn targets, ∀ b ∈ mainMerge hashFn targets,
      uidValue a = uidValue b → a = b := by
  have hmem : ∀ x ∈ mainMerge hashFn targets,
      ∃ t ∈ targets, ∃ ev ∈ t.events, x = transformEvent hashFn t ev := by
    intro x hx
    have hx1 : x ∈ (targets.map (fun t => t.events.map (transformEvent hashFn t))).flatten := by
      rw [mainMerge, dedupe] at hx
      exact (mem_dedupeAux.mp hx).1
    rcases List.mem_flatten.mp hx1 with ⟨blk, hblk, hxblk⟩
    rcases List.mem_map.mp hblk with ⟨t, ht, rfl⟩
    rcases List.mem_map.mp hxblk with ⟨ev, hev, rfl⟩
    exact ⟨t, ht, ev, hev, rfl⟩
  intro a ha b hb hab
  rcases hmem a ha with ⟨t, ht, ea, hea, rfl⟩
  rcases hmem b hb with ⟨s, hs, eb, heb, rfl⟩
  obtain ⟨ua, hua⟩ : ∃ u, ea.find? uidMatch = some u := by
    rcases huid t ht ea hea with ⟨l, hl, hml⟩
    exact Option.isSome_iff_exists.mp (List.find?_isSome.mpr ⟨l, hl, hml⟩)
  obtain ⟨ub, hub⟩ : ∃ u, eb.find? uidMatch = some u := by
    rcases huid s hs eb heb with ⟨l, hl, hml⟩
    exact Option.isSome_iff_exists.mp (List.find?_isSome.mpr ⟨l, hl, hml⟩)
  rw [uidValue_transformEvent hashFn t ea hua, uidValue_transformEvent hashFn s eb hub] at hab
  have hab2 : mkNamespace t ++ '-' :: ua.drop 4 = mkNamespace s ++ '-' :: ub.drop 4 :=
    Option.some_injective _ hab
  rw [mkNamespace, mkNamespace] at hab2
  obtain ⟨h1, h2, h3⟩ := uidValue_parts_injective _ _ _ _ _ _
    (hdig t ht).1 (hdig t ht).2 (hdig s hs).1 (hdig s hs).2 hab2
  have hts : t = s := by
    refine List.inj_on_of_nodup_map hnodup ht hs ?_
    rw [h1, h2]
  subst hts
  have hue : uidValue ea = uidValue eb := by
    rw [uidValue, uidValue, hua, hub, Option.map_some', Option.map_some', h3]
  rw [hdist t ht ea hea eb heb hue]

/-- Witness for the amended C1: two targets with distinct ids sharing the
same underlying event content. -/
theorem mainMerge_uid_injective_witness :
    (∀ t ∈ [(⟨s2c "A", s2c "51127", s2c "425276",
          [[s2c "BEGIN:VEVENT", s2c "UID:9", s2c "END:VEVENT"]]⟩ : TargetData),
        ⟨s2c "B", s2c "52205", s2c "425277",
          [[s2c "BEGIN:VEVENT", s2c "UID:9", s2c "END:VEVENT"]]⟩],
      (∀ c ∈ t.liga_id, c.isDigit = true) ∧ (∀ c ∈ t.ms_id, c.isDigit = true)) ∧
    ∀ a ∈ mainMerge (fun _ => 0)
        [⟨s2c "A", s2c "51127", s2c "425276",
          [[s2c "BEGIN:VEVENT", s2c "UID:9", s2c "END:VEVENT"]]⟩,
         ⟨s2c "B", s2c "52205", s2c "425277",
          [[s2c "BEGIN:VEVENT", s2c "UID:9", s2c "END:VEVENT"]]⟩],
      ∀ b ∈ mainMerge (fun _ => 0)
        [⟨s2c "A", s2c "51127", s2c "425276",
          [[s2c "BEGIN:VEVENT", s2c "UID:9", s2c "END:VEVENT"]]⟩,
         ⟨s2c "B", s2c "52205", s2c "425277",
          [[s2c "BEGIN:VEVENT", s2c "UID:9", s2c "END:VEVENT"]]⟩],
      uidValue a = uidValue b → a = b :=
  ⟨by decide,
    mainMerge_uid_injective (fun _ => 0) _ (by decide) (by decide)
      (by decide) (by decide)⟩

end BasketballCalendar
